import Mathlib

/-!
Verification of the YOLO post-processing pipeline in
`src/trt_package/detector.py` (classes `DarknetTRT` and `PostprocessYOLO`).

Modelling conventions:
* Python floats are modelled as rationals (`ℚ`); the IEEE `np.exp` function is
  an abstract parameter `fexp : ℚ → ℚ`, so every theorem quantifying over
  `fexp` holds for any exponential function.
* NumPy arrays are nested lists; a tensor of shape (H, W, 3, 85) becomes
  `List (List (List (List ℚ)))`, indexed row-major exactly as NumPy does.
* Fallible NumPy operations (`np.reshape` with an incompatible size,
  `np.concatenate` of an empty sequence) return `Except String`.
-/

namespace TrtYolo

/-- A bounding box in (x, y, w, h) form, as stored in the 4-wide slices of the
post-processor's arrays. -/
structure Box where
  x : ℚ
  y : ℚ
  w : ℚ
  h : ℚ
deriving DecidableEq, Repr

instance : Inhabited Box := ⟨⟨0, 0, 0, 0⟩⟩

/-- The fields of `PostprocessYOLO` fixed by `__init__`: `self.masks`,
`self.anchors`, `self.object_threshold`, `self.nms_threshold`,
`self.input_resolution_yolo` (HW order). -/
structure Config where
  masks : List (List ℕ)
  anchors : List (ℚ × ℚ)
  object_threshold : ℚ
  nms_threshold : ℚ
  input_resolution_yolo : ℚ × ℚ
deriving DecidableEq, Repr

/-- A rank-3 array (height, width, anchors) of `α`. -/
abbrev Tensor3 (α : Type) := List (List (List α))

/-- A reshaped YOLO output of shape (height, width, 3, 85). -/
abbrev Tensor4 := List (List (List (List ℚ)))

/-- The value returned by `PostprocessYOLO.process`: either the three
index-aligned arrays, or the `(None, None, None)` no-detections triple
(each component `none`). -/
abbrev Result := Option (List Box) × Option (List ℕ) × Option (List ℚ)

/-- Model of `np.max(l)` along the last axis (the maximum of a non-empty list; we return
0 for the empty list, which the code never queries since CATEGORY_NUM = 80). -/
def npMax (l : List ℚ) : ℚ := l.maximum.unbot' 0

/-- Model of `np.argmax(l)`: the index of the first occurrence of the maximum. -/
def npArgmax (l : List ℚ) : ℕ := l.indexOf (npMax l)

/-- Row-major flattening of a rank-3 array, as NumPy fancy-indexing with
`np.where` over the (H, W, A) axes enumerates entries. -/
def flat3 {α : Type} (t : Tensor3 α) : List α := t.flatten.flatten

/-- Model of `np.concatenate`: raises `ValueError` when given no arrays at all,
otherwise concatenates along the first axis. -/
def npConcatenate {α : Type} : List (List α) → Except String (List α)
  | [] => .error "need at least one array to concatenate"
  | ls => .ok ls.flatten

/-- Model of `np.where(l == v)[0]`: the indices at which the array `l` holds `v`, in
ascending order. -/
def npWhereEq (l : List ℕ) (v : ℕ) : List ℕ :=
  (List.range l.length).filter fun i => l.getD i 0 = v

/-- The logistic sigmoid `1.0 / (1.0 + np.exp(-v))` used throughout
`_process_feats`, with the exponential abstract. -/
def sigmoid (fexp : ℚ → ℚ) (v : ℚ) : ℚ := 1 / (1 + fexp (-v))

/-- Model of `PostprocessYOLO._process_feats`: decode one scale's reshaped output of
shape (grid_h, grid_w, 3, 85) against its mask's anchor subset.  Per cell
`(i, j)` and anchor slot `a`:
`box_xy = σ(ch 0..1)`, then `+ (col, row)`, then `/ (grid_w, grid_h)`;
`box_wh = σ(ch 2..3) * anchor`, then `/ input_resolution_yolo` (componentwise
against the (h, w) pair, exactly as the NumPy broadcast divides);
`box_xy -= box_wh / 2`; `box_confidence = σ(ch 4)`;
`box_class_probs = σ(ch 5..)`.  The code builds its `col`/`row` grids by
tiling, which agrees with per-cell indices `(j, i)` on the square grids the
pipeline produces. -/
def process_feats (fexp : ℚ → ℚ) (cfg : Config) (output_reshaped : Tensor4)
    (mask : List ℕ) : Tensor3 Box × Tensor3 ℚ × Tensor3 (List ℚ) :=
  let grid_h := output_reshaped.length
  let grid_w := (output_reshaped.headD []).length
  let anchors := mask.map fun idx => cfg.anchors.getD idx (0, 0)
  let boxes := output_reshaped.enum.map fun ir =>
    ir.2.enum.map fun jr =>
      jr.2.enum.map fun ar =>
        let cell := ar.2
        let anchor := anchors.getD ar.1 (0, 0)
        let bw := sigmoid fexp (cell.getD 2 0) * anchor.1 / cfg.input_resolution_yolo.1
        let bh := sigmoid fexp (cell.getD 3 0) * anchor.2 / cfg.input_resolution_yolo.2
        let bx := (sigmoid fexp (cell.getD 0 0) + (jr.1 : ℚ)) / (grid_w : ℚ) - bw / 2
        let by_ := (sigmoid fexp (cell.getD 1 0) + (ir.1 : ℚ)) / (grid_h : ℚ) - bh / 2
        Box.mk bx by_ bw bh
  let box_confidence := output_reshaped.map fun row => row.map fun col =>
    col.map fun cell => sigmoid fexp (cell.getD 4 0)
  let box_class_probs := output_reshaped.map fun row => row.map fun col =>
    col.map fun cell => (cell.drop 5).map fun v => sigmoid fexp v
  (boxes, box_confidence, box_class_probs)

/-- Model of `PostprocessYOLO._filter_boxes`: per cell/anchor compute
`box_scores = box_confidences * box_class_probs`, take
`box_classes = np.argmax(box_scores, axis=-1)` and
`box_class_scores = np.max(box_scores, axis=-1)`, and keep the positions
`np.where(box_class_scores >= self.object_threshold)` (row-major order).
The three same-shape tensors are traversed jointly via `zip`. -/
def filter_boxes (cfg : Config) (boxes : Tensor3 Box) (box_confidences : Tensor3 ℚ)
    (box_class_probs : Tensor3 (List ℚ)) : List Box × List ℕ × List ℚ :=
  let cells := (flat3 boxes).zip ((flat3 box_confidences).zip (flat3 box_class_probs))
  let scored := cells.map fun c =>
    let box_scores := c.2.2.map fun p => c.2.1 * p
    (c.1, npArgmax box_scores, npMax box_scores)
  let kept := scored.filter fun e => cfg.object_threshold ≤ e.2.2
  (kept.map (·.1), kept.map (·.2.1), kept.map (·.2.2))

/-- The IoU computed inside `_nms_boxes` for the current box `bi` against a
remaining candidate `bj`, with the legacy `+ 1` inclusive-pixel convention:
`width1 = max(0, xx2 - xx1 + 1)`, `height1 = max(0, yy2 - yy1 + 1)`,
`iou = intersection / (areas[i] + areas[j] - intersection)` where
`areas = width * height`. -/
def iou (bi bj : Box) : ℚ :=
  let xx1 := max bi.x bj.x
  let yy1 := max bi.y bj.y
  let xx2 := min (bi.x + bi.w) (bj.x + bj.w)
  let yy2 := min (bi.y + bi.h) (bj.y + bj.h)
  let width1 := max 0 (xx2 - xx1 + 1)
  let height1 := max 0 (yy2 - yy1 + 1)
  let intersection := width1 * height1
  let union := bi.w * bi.h + bj.w * bj.h - intersection
  intersection / union

/-- The ordering relation realised by `box_confidences.argsort()[::-1]`:
index `i` precedes index `j` when its confidence is at least as large. -/
def confGe (box_confidences : List ℚ) (i j : ℕ) : Prop :=
  box_confidences.getD j 0 ≤ box_confidences.getD i 0

instance (box_confidences : List ℚ) : DecidableRel (confGe box_confidences) :=
  fun i j => inferInstanceAs (Decidable (box_confidences.getD j 0 ≤ box_confidences.getD i 0))

instance (box_confidences : List ℚ) : IsTotal ℕ (confGe box_confidences) :=
  ⟨fun i j => le_total (box_confidences.getD j 0) (box_confidences.getD i 0)⟩

instance (box_confidences : List ℚ) : IsTrans ℕ (confGe box_confidences) :=
  ⟨fun _ _ _ h1 h2 => le_trans h2 h1⟩

/-- Model of `box_confidences.argsort()[::-1]`: the candidate indices sorted into
non-increasing confidence order (NumPy's default sort is unstable, so tie
order is unspecified; any non-increasing permutation models it). -/
def argsortDesc (box_confidences : List ℚ) : List ℕ :=
  (List.range box_confidences.length).insertionSort (confGe box_confidences)

/-- The `while ordered.size > 0` loop of `_nms_boxes`: pop the
highest-confidence index `i`, append it to `keep`, and retain in the active
order only the remaining indices whose IoU with `i` is `<= self.nms_threshold`.
The loop pops one element per iteration, so fuel equal to the initial length
never runs out. -/
def nmsLoop (cfg : Config) (boxes : List Box) : ℕ → List ℕ → List ℕ
  | _, [] => []
  | 0, _ :: _ => []
  | fuel + 1, i :: rest =>
      i :: nmsLoop cfg boxes fuel (rest.filter fun j =>
        iou (boxes.getD i default) (boxes.getD j default) ≤ cfg.nms_threshold)

/-- Model of `PostprocessYOLO._nms_boxes`: greedy per-class NMS returning the kept
original indices in selection order. -/
def nms_boxes (cfg : Config) (boxes : List Box) (box_confidences : List ℚ) : List ℕ :=
  let ordered := argsortDesc box_confidences
  nmsLoop cfg boxes ordered.length ordered

/-- A raw TensorRT output tensor in NCHW layout, with its flat data. -/
structure RawOutput where
  n : ℕ
  c : ℕ
  h : ℕ
  w : ℕ
  data : List ℚ
deriving DecidableEq, Repr

/-- The shape condition under which `np.reshape` of the transposed
(1, H, W, C) array into (H, W, 3, 85) succeeds: equal total element count.
For non-degenerate H, W and N = 1, this forces C = 255 = 3 * (5 + 80). -/
def reshape_ok (o : RawOutput) : Prop :=
  o.n * o.c * o.h * o.w = o.h * o.w * 3 * 85

instance (o : RawOutput) : Decidable (reshape_ok o) :=
  inferInstanceAs (Decidable (_ = _))

/-- The value produced by `_reshape_output` when the shape is compatible:
`np.transpose(output, [0, 2, 3, 1])` to NHWC, then row-major `np.reshape` to
(H, W, 3, 85).  Result element `[i][j][a][k]` sits at flat position
`((i*W + j)*3 + a)*85 + k`, which reshape identifies with the same flat
position of the transposed (N, H, W, C) array; decomposing that position as
`(m, i2, j2, ch)` there, the value is NCHW flat element
`((m*C + ch)*H + i2)*W + j2`.  For the pipeline's actual shape
(N, C) = (1, 255) this is flat NCHW element `(a*85 + k)*H*W + i*W + j`. -/
def reshapeBody (o : RawOutput) : Tensor4 :=
  (List.range o.h).map fun i =>
    (List.range o.w).map fun j =>
      (List.range 3).map fun a =>
        (List.range 85).map fun k =>
          let u := ((i * o.w + j) * 3 + a) * 85 + k
          let m := u / (o.h * o.w * o.c)
          let r1 := u % (o.h * o.w * o.c)
          let i2 := r1 / (o.w * o.c)
          let r2 := r1 % (o.w * o.c)
          let j2 := r2 / o.c
          let ch := r2 % o.c
          o.data.getD (((m * o.c + ch) * o.h + i2) * o.w + j2) 0

/-- Model of `PostprocessYOLO._reshape_output`: `np.transpose(output, [0, 2, 3, 1])`
followed by `np.reshape(output, (height, width, 3, 85))`; `np.reshape` raises
`ValueError` when the element counts disagree. -/
def reshapeOutput (o : RawOutput) : Except String Tensor4 :=
  if reshape_ok o then .ok (reshapeBody o) else .error "cannot reshape array"

/-- Scale boxes back to the original image shape
(`width, height = resolution_raw; boxes = boxes * [width, height, width,
height]`). -/
def rescaleBoxes (resolution_raw : ℚ × ℚ) (boxes : List Box) : List Box :=
  let width := resolution_raw.1
  let height := resolution_raw.2
  boxes.map fun b => Box.mk (b.x * width) (b.y * height) (b.w * width) (b.h * height)

/-- What `DarknetTRT.__call__` passes to `process` as `resolution_raw`:
`shape_orig_WH = image.shape` and then `shape_orig_WH[:2]`.  For an ndarray
image of shape (height, width, channels), `image.shape[:2]` is
`(height, width)`. -/
def callResolutionRaw (image_height image_width : ℚ) : ℚ × ℚ :=
  (image_height, image_width)

/-- One iteration of the per-scale loop in `_process_yolo_output`:
`_process_feats` followed by `_filter_boxes`. -/
def decodeAndFilter (fexp : ℚ → ℚ) (cfg : Config) (om : Tensor4 × List ℕ) :
    List Box × List ℕ × List ℚ :=
  let f := process_feats fexp cfg om.1 om.2
  filter_boxes cfg f.1 f.2.1 f.2.2

/-- The whole per-scale loop: `zip(outputs_reshaped, self.masks)` (which
silently pairs up to the shorter sequence, as Python's `zip` does), decoding
and filtering each pair. -/
def perScaleResults (fexp : ℚ → ℚ) (cfg : Config) (outputs_reshaped : List Tensor4) :
    List (List Box × List ℕ × List ℚ) :=
  (outputs_reshaped.zip cfg.masks).map (decodeAndFilter fexp cfg)

/-- One iteration of the per-class NMS loop in `_process_yolo_output`:
`idxs = np.where(categories == category)`, gather `box`, `category`,
`confidence` at `idxs`, run `_nms_boxes`, and gather the kept entries. -/
def nmsGroup (cfg : Config) (boxes : List Box) (categories : List ℕ)
    (confidences : List ℚ) (category : ℕ) : List Box × List ℕ × List ℚ :=
  let idxs := npWhereEq categories category
  let box := idxs.map fun k => boxes.getD k default
  let category_arr := idxs.map fun k => categories.getD k 0
  let confidence := idxs.map fun k => confidences.getD k 0
  let keep := nms_boxes cfg box confidence
  (keep.map fun k => box.getD k default,
   keep.map fun k => category_arr.getD k 0,
   keep.map fun k => confidence.getD k 0)

/-- Model of `PostprocessYOLO._process_yolo_output`: decode+filter every scale,
concatenate, rescale to the caller-supplied resolution, run per-class NMS
(`for category in set(categories)` — the Python set iterates each distinct
integer value exactly once in an order that is a deterministic function of the
values; we model it by deterministic deduplication), return
`(None, None, None)` when no class group exists, otherwise the concatenated
survivors.  The final three `np.concatenate` calls cannot fail there because
the class loop ran at least once. -/
def process_yolo_output (fexp : ℚ → ℚ) (cfg : Config) (outputs_reshaped : List Tensor4)
    (resolution_raw : ℚ × ℚ) : Except String Result := do
  let perScale := perScaleResults fexp cfg outputs_reshaped
  let boxes0 ← npConcatenate (perScale.map (·.1))
  let categories ← npConcatenate (perScale.map (·.2.1))
  let confidences ← npConcatenate (perScale.map (·.2.2))
  let boxes := rescaleBoxes resolution_raw boxes0
  let cats := categories.dedup
  let groups := cats.map (nmsGroup cfg boxes categories confidences)
  if cats = [] then
    pure (none, none, none)
  else
    pure (some ((groups.map (·.1)).flatten),
          some ((groups.map (·.2.1)).flatten),
          some ((groups.map (·.2.2)).flatten))

/-- The reshape loop at the top of `process`
(`for output in outputs: outputs_reshaped.append(self._reshape_output(output))`):
raises at the first incompatible tensor. -/
def reshapeAll : List RawOutput → Except String (List Tensor4)
  | [] => .ok []
  | o :: rest =>
      match reshapeOutput o with
      | .error e => .error e
      | .ok t =>
        match reshapeAll rest with
        | .error e => .error e
        | .ok ts => .ok (t :: ts)

/-- Model of `PostprocessYOLO.process`: reshape every output tensor (raising at the
first incompatible one, before any decode work), then post-process. -/
def process (fexp : ℚ → ℚ) (cfg : Config) (outputs : List RawOutput)
    (resolution_raw : ℚ × ℚ) : Except String Result :=
  match reshapeAll outputs with
  | .error e => .error e
  | .ok outputs_reshaped => process_yolo_output fexp cfg outputs_reshaped resolution_raw

/-- Model of `process` as a state-passing function: the Python method reads
`self.masks`, `self.anchors`, `self.object_threshold`, `self.nms_threshold`
and `self.input_resolution_yolo` but assigns no attribute of `self`, so the
configuration component of the state is returned unchanged. -/
def processStateful (fexp : ℚ → ℚ) (cfg : Config) (outputs : List RawOutput)
    (resolution_raw : ℚ × ℚ) : Config × Except String Result :=
  (cfg, process fexp cfg outputs resolution_raw)

/-- The configuration built by `DarknetTRT.__init__` with its default
thresholds (`obj_threshold=0.6`, `nms_threshold=0.7`, 608x608 input). -/
def stdConfig : Config where
  masks := [[6, 7, 8], [3, 4, 5], [0, 1, 2]]
  anchors := [(10, 13), (16, 30), (33, 23), (30, 61), (62, 45),
              (59, 119), (116, 90), (156, 198), (373, 326)]
  object_threshold := 6 / 10
  nms_threshold := 7 / 10
  input_resolution_yolo := (608, 608)

/-- A single-mask configuration for small concrete test inputs. -/
def smallConfig : Config where
  masks := [[0, 1, 2]]
  anchors := [(10, 13), (16, 30), (33, 23)]
  object_threshold := 6 / 10
  nms_threshold := 7 / 10
  input_resolution_yolo := (608, 608)

/-- A well-shaped all-zero raw tensor on a 1x1 grid: (1, 255, 1, 1), with the
missing data entries read as 0. -/
def zeroTensor255 : RawOutput := ⟨1, 255, 1, 1, []⟩

/-- A raw tensor whose channel count 254 is incompatible with (1, 1, 3, 85). -/
def badTensor254 : RawOutput := ⟨1, 254, 1, 1, []⟩

/-! ### Lemmas about `np.max` / `np.argmax` -/

theorem le_npMax {l : List ℚ} {x : ℚ} (hx : x ∈ l) : x ≤ npMax l := by
  cases hm : l.maximum with
  | bot =>
    rcases List.maximum_eq_none.mp hm with rfl
    cases hx
  | coe m =>
    have := List.le_maximum_of_mem hx hm
    simpa [npMax, hm] using this

theorem npMax_mem {l : List ℚ} (hl : l ≠ []) : npMax l ∈ l := by
  cases hm : l.maximum with
  | bot => exact absurd (List.maximum_eq_none.mp hm) hl
  | coe m =>
    have := List.maximum_mem hm
    simpa [npMax, hm] using this

theorem npArgmax_lt_length {l : List ℚ} (hl : l ≠ []) : npArgmax l < l.length :=
  List.indexOf_lt_length.mpr (npMax_mem hl)

theorem getD_npArgmax {l : List ℚ} (hl : l ≠ []) : l.getD (npArgmax l) 0 = npMax l := by
  have hlt := npArgmax_lt_length hl
  rw [List.getD_eq_getElem l 0 hlt]
  exact List.getElem_indexOf hlt

theorem getD_ne_of_lt_indexOf {l : List ℚ} {a : ℚ} {m : ℕ}
    (hm : m < l.indexOf a) : l.getD m 0 ≠ a := by
  induction l generalizing m with
  | nil => simp at hm
  | cons x t ih =>
    by_cases hx : x = a
    · simp [List.indexOf_cons, hx] at hm
    · cases m with
      | zero => simpa using hx
      | succ m' =>
        apply ih
        have hba : (x == a) = false := beq_eq_false_iff_ne.mpr hx
        simp only [List.indexOf_cons, hba, cond_false] at hm
        omega

/-! ### Generic list lemmas -/

theorem filter_map_proj {α β γ : Type} (l : List α) (f : α → β) (proj : β → γ)
    (p : γ → Bool) :
    ((l.map f).filter fun b => p (proj b)).map proj =
      (l.map fun a => proj (f a)).filter p := by
  induction l with
  | nil => rfl
  | cons a t ih =>
    simp only [List.map_cons, List.filter_cons]
    cases h : p (proj (f a)) <;> simp [h, ih]

theorem zip_map_proj {α β γ : Type} (l : List (α × β × γ)) :
    (l.map (·.1)).zip ((l.map (·.2.1)).zip (l.map (·.2.2))) = l := by
  induction l with
  | nil => rfl
  | cons a t ih => simp [ih]

theorem pair_sublist_of_mem {α : Type} {l : List α} {a b : α}
    (ha : a ∈ l) (hb : b ∈ l) (hab : a ≠ b) :
    List.Sublist [a, b] l ∨ List.Sublist [b, a] l := by
  induction l with
  | nil => cases ha
  | cons x t ih =>
    rcases List.mem_cons.mp ha with rfl | ha'
    · have hb' : b ∈ t := by
        rcases List.mem_cons.mp hb with rfl | hb'
        · exact absurd rfl hab
        · exact hb'
      exact Or.inl (List.cons_sublist_cons.mpr (List.singleton_sublist.mpr hb'))
    · rcases List.mem_cons.mp hb with rfl | hb'
      · exact Or.inr (List.cons_sublist_cons.mpr (List.singleton_sublist.mpr ha'))
      · exact (ih ha' hb').imp (·.cons x) (·.cons x)

/-! ### C1: the candidate filter -/

/-- Claim C1 (confirmed). For every candidate that survives `_filter_boxes` (every aligned
triple of its three outputs), the recorded confidence is
`np.max(box_confidences * box_class_probs)` over the class axis of its
cell/anchor — a genuine maximum: it bounds every `objectness * probability`
product and is attained by one of them — the class index is the first index
attaining that maximum, and the maximum is `>= self.object_threshold`;
moreover the surviving scores are exactly the per-cell best scores meeting the
threshold, in row-major order, so every cell/anchor entry whose best score is
below the threshold is discarded. -/
theorem filter_boxes_spec (cfg : Config) (B : Tensor3 Box) (C : Tensor3 ℚ)
    (P : Tensor3 (List ℚ)) :
    ((filter_boxes cfg B C P).2.2 =
      (((flat3 B).zip ((flat3 C).zip (flat3 P))).map fun c =>
          npMax (c.2.2.map fun p => c.2.1 * p)).filter
        fun s => cfg.object_threshold ≤ s) ∧
    ∀ t ∈ (filter_boxes cfg B C P).1.zip
        (((filter_boxes cfg B C P).2.1).zip ((filter_boxes cfg B C P).2.2)),
      ∃ c ∈ (flat3 B).zip ((flat3 C).zip (flat3 P)),
        t.1 = c.1 ∧
        t.2.1 = npArgmax (c.2.2.map fun p => c.2.1 * p) ∧
        t.2.2 = npMax (c.2.2.map fun p => c.2.1 * p) ∧
        cfg.object_threshold ≤ t.2.2 ∧
        (∀ p ∈ c.2.2, c.2.1 * p ≤ t.2.2) ∧
        (c.2.2 ≠ [] →
          t.2.2 ∈ c.2.2.map (fun p => c.2.1 * p) ∧
          (c.2.2.map fun p => c.2.1 * p).getD t.2.1 0 = t.2.2) ∧
        (∀ m < t.2.1, (c.2.2.map fun p => c.2.1 * p).getD m 0 ≠ t.2.2) := by
  constructor
  · exact filter_map_proj ((flat3 B).zip ((flat3 C).zip (flat3 P)))
      (fun c => (c.1, npArgmax (c.2.2.map fun p => c.2.1 * p),
        npMax (c.2.2.map fun p => c.2.1 * p)))
      (·.2.2) (fun s => decide (cfg.object_threshold ≤ s))
  · intro t ht
    rw [show (filter_boxes cfg B C P).1.zip
        (((filter_boxes cfg B C P).2.1).zip ((filter_boxes cfg B C P).2.2)) =
        ((((flat3 B).zip ((flat3 C).zip (flat3 P))).map fun c =>
            (c.1, npArgmax (c.2.2.map fun p => c.2.1 * p),
              npMax (c.2.2.map fun p => c.2.1 * p))).filter
          fun e => cfg.object_threshold ≤ e.2.2) from zip_map_proj _] at ht
    have hmem := List.mem_filter.mp ht
    have hthr : cfg.object_threshold ≤ t.2.2 := by
      have := hmem.2
      simpa using this
    rcases List.mem_map.mp hmem.1 with ⟨c, hc, hct⟩
    refine ⟨c, hc, ?_, ?_, ?_, hthr, ?_, ?_, ?_⟩
    · rw [← hct]
    · rw [← hct]
    · rw [← hct]
    · intro p hp
      have : c.2.1 * p ∈ c.2.2.map fun p => c.2.1 * p := List.mem_map_of_mem _ hp
      rw [← hct]
      exact le_npMax this
    · intro hne
      have hmapne : (c.2.2.map fun p => c.2.1 * p) ≠ [] := by
        simpa using hne
      constructor
      · rw [← hct]
        exact npMax_mem hmapne
      · rw [← hct]
        exact getD_npArgmax hmapne
    · intro m hm
      rw [← hct] at hm ⊢
      exact getD_ne_of_lt_indexOf hm

/-- Witness for `filter_boxes_spec` at a concrete one-cell input with two
categories. -/
theorem filter_boxes_spec_witness :
    ((Box.mk 0 0 2 2, (0 : ℕ), (3 : ℚ)/4) ∈
      (filter_boxes smallConfig [[[Box.mk 0 0 2 2]]] [[[1]]] [[[[3/4, 1/2]]]]).1.zip
        (((filter_boxes smallConfig [[[Box.mk 0 0 2 2]]] [[[1]]] [[[[3/4, 1/2]]]]).2.1).zip
          ((filter_boxes smallConfig [[[Box.mk 0 0 2 2]]] [[[1]]] [[[[3/4, 1/2]]]]).2.2))) ∧
    ∃ c ∈ (flat3 ([[[Box.mk 0 0 2 2]]] : Tensor3 Box)).zip
        ((flat3 ([[[1]]] : Tensor3 ℚ)).zip (flat3 ([[[[3/4, 1/2]]]] : Tensor3 (List ℚ)))),
      Box.mk 0 0 2 2 = c.1 ∧
      (0 : ℕ) = npArgmax (c.2.2.map fun p => c.2.1 * p) ∧
      (3 : ℚ)/4 = npMax (c.2.2.map fun p => c.2.1 * p) ∧
      smallConfig.object_threshold ≤ (3 : ℚ)/4 ∧
      (∀ p ∈ c.2.2, c.2.1 * p ≤ (3 : ℚ)/4) ∧
      (c.2.2 ≠ [] →
        (3 : ℚ)/4 ∈ c.2.2.map (fun p => c.2.1 * p) ∧
        (c.2.2.map fun p => c.2.1 * p).getD 0 0 = (3 : ℚ)/4) ∧
      (∀ m < (0 : ℕ), (c.2.2.map fun p => c.2.1 * p).getD m 0 ≠ (3 : ℚ)/4) :=
  ⟨of_decide_eq_true (by with_unfolding_all rfl),
   (filter_boxes_spec smallConfig [[[Box.mk 0 0 2 2]]] [[[1]]] [[[[3/4, 1/2]]]]).2
     (Box.mk 0 0 2 2, 0, 3/4) (of_decide_eq_true (by with_unfolding_all rfl))⟩

/-! ### Lemmas about the greedy NMS loop -/

theorem nmsLoop_sublist (cfg : Config) (boxes : List Box) :
    ∀ (fuel : ℕ) (l : List ℕ), List.Sublist (nmsLoop cfg boxes fuel l) l := by
  intro fuel
  induction fuel with
  | zero =>
    intro l
    cases l <;> simp [nmsLoop]
  | succ fuel ih =>
    intro l
    cases l with
    | nil => simp [nmsLoop]
    | cons i rest =>
      show List.Sublist (i :: nmsLoop cfg boxes fuel _) (i :: rest)
      exact List.cons_sublist_cons.mpr ((ih _).trans (List.filter_sublist rest))

theorem nmsLoop_pair (cfg : Config) (boxes : List Box) :
    ∀ (fuel : ℕ) (l : List ℕ) (a b : ℕ),
      List.Sublist [a, b] (nmsLoop cfg boxes fuel l) →
      iou (boxes.getD a default) (boxes.getD b default) ≤ cfg.nms_threshold := by
  intro fuel
  induction fuel with
  | zero =>
    intro l a b h
    cases l <;> simp [nmsLoop] at h
  | succ fuel ih =>
    intro l a b h
    cases l with
    | nil => simp [nmsLoop] at h
    | cons i rest =>
      have h' : List.Sublist [a, b]
          (i :: nmsLoop cfg boxes fuel (rest.filter fun j =>
            iou (boxes.getD i default) (boxes.getD j default) ≤ cfg.nms_threshold)) := h
      cases h' with
      | cons _ htail => exact ih _ a b htail
      | cons₂ _ htail =>
        have hb : b ∈ nmsLoop cfg boxes fuel (rest.filter fun j =>
            iou (boxes.getD a default) (boxes.getD j default) ≤ cfg.nms_threshold) :=
          List.singleton_sublist.mp htail
        have hbf := (nmsLoop_sublist cfg boxes fuel _).subset hb
        have := (List.mem_filter.mp hbf).2
        simpa using this

theorem iou_comm (b1 b2 : Box) : iou b1 b2 = iou b2 b1 := by
  unfold iou
  rw [max_comm b1.x b2.x, max_comm b1.y b2.y,
    min_comm (b1.x + b1.w) (b2.x + b2.w), min_comm (b1.y + b1.h) (b2.y + b2.h),
    add_comm (b1.w * b1.h) (b2.w * b2.h)]

/-! ### C2: kept boxes of one class pairwise respect the IoU threshold -/

/-- Claim C2 (confirmed). Any two distinct indices kept by `_nms_boxes` have
`iou <= self.nms_threshold` (with `iou` carrying the `+ 1` inclusive-pixel
convention): when the earlier of the two was popped, the later survived the
filter `iou <= nms_threshold`, and `iou` is symmetric. -/
theorem nms_kept_pairwise_iou (cfg : Config) (boxes : List Box) (confs : List ℚ)
    (a b : ℕ) (ha : a ∈ nms_boxes cfg boxes confs) (hb : b ∈ nms_boxes cfg boxes confs)
    (hab : a ≠ b) :
    iou (boxes.getD a default) (boxes.getD b default) ≤ cfg.nms_threshold := by
  rcases pair_sublist_of_mem ha hb hab with hs | hs
  · exact nmsLoop_pair cfg boxes _ _ a b hs
  · rw [iou_comm]
    exact nmsLoop_pair cfg boxes _ _ b a hs

/-- Witness for `nms_kept_pairwise_iou`: two disjoint boxes are both kept. -/
theorem nms_kept_pairwise_iou_witness :
    (0 ∈ nms_boxes smallConfig [Box.mk 0 0 1 1, Box.mk 100 100 1 1] [1/2, 3/4] ∧
     1 ∈ nms_boxes smallConfig [Box.mk 0 0 1 1, Box.mk 100 100 1 1] [1/2, 3/4]) ∧
    iou (([Box.mk 0 0 1 1, Box.mk 100 100 1 1].getD 0 default))
        (([Box.mk 0 0 1 1, Box.mk 100 100 1 1].getD 1 default)) ≤
      smallConfig.nms_threshold :=
  ⟨⟨of_decide_eq_true (by with_unfolding_all rfl),
    of_decide_eq_true (by with_unfolding_all rfl)⟩,
   nms_kept_pairwise_iou smallConfig [Box.mk 0 0 1 1, Box.mk 100 100 1 1] [1/2, 3/4]
     0 1 (of_decide_eq_true (by with_unfolding_all rfl))
     (of_decide_eq_true (by with_unfolding_all rfl)) (by decide)⟩

/-! ### C3: the per-iteration suppression rule -/

/-- Claim C3 (confirmed). One iteration of the `while` loop of `_nms_boxes`: the popped
index `i` is appended to the keep list, and a remaining candidate `j` is
retained in the active order (in its old position) if and only if
`overlap_w * overlap_h / (w_i*h_i + w_j*h_j - overlap_w*overlap_h)` is
`<= self.nms_threshold`, where
`overlap_w = max(0, min(x_i+w_i, x_j+w_j) - max(x_i, x_j) + 1)` and
`overlap_h` is the analogous height expression with the same `+ 1`; a
candidate whose IoU equals the threshold exactly survives. -/
theorem nms_iteration_spec (cfg : Config) (boxes : List Box) (fuel i : ℕ)
    (rest : List ℕ) :
    (nmsLoop cfg boxes (fuel + 1) (i :: rest) =
      i :: nmsLoop cfg boxes fuel (rest.filter fun j =>
        iou (boxes.getD i default) (boxes.getD j default) ≤ cfg.nms_threshold)) ∧
    ∀ j ∈ rest,
      (j ∈ rest.filter (fun j' =>
          iou (boxes.getD i default) (boxes.getD j' default) ≤ cfg.nms_threshold) ↔
        (let bi := boxes.getD i default
         let bj := boxes.getD j default
         let overlap_w := max 0 (min (bi.x + bi.w) (bj.x + bj.w) - max bi.x bj.x + 1)
         let overlap_h := max 0 (min (bi.y + bi.h) (bj.y + bj.h) - max bi.y bj.y + 1)
         overlap_w * overlap_h /
           (bi.w * bi.h + bj.w * bj.h - overlap_w * overlap_h) ≤ cfg.nms_threshold)) := by
  constructor
  · rfl
  · intro j hj
    show _ ↔ iou (boxes.getD i default) (boxes.getD j default) ≤ cfg.nms_threshold
    simp [List.mem_filter, hj]

/-- Witness for `nms_iteration_spec`: the disjoint remaining candidate `1`
survives the iteration that pops candidate `0`. -/
theorem nms_iteration_spec_witness :
    (1 ∈ [1]) ∧
    ((1 ∈ List.filter (fun j' =>
        iou ([Box.mk 0 0 1 1, Box.mk 100 100 1 1].getD 0 default)
          ([Box.mk 0 0 1 1, Box.mk 100 100 1 1].getD j' default) ≤
          smallConfig.nms_threshold) [1]) ↔
      (let bi := [Box.mk 0 0 1 1, Box.mk 100 100 1 1].getD 0 default
       let bj := [Box.mk 0 0 1 1, Box.mk 100 100 1 1].getD 1 default
       let overlap_w := max 0 (min (bi.x + bi.w) (bj.x + bj.w) - max bi.x bj.x + 1)
       let overlap_h := max 0 (min (bi.y + bi.h) (bj.y + bj.h) - max bi.y bj.y + 1)
       overlap_w * overlap_h /
         (bi.w * bi.h + bj.w * bj.h - overlap_w * overlap_h) ≤
         smallConfig.nms_threshold)) :=
  ⟨by decide,
   (nms_iteration_spec smallConfig [Box.mk 0 0 1 1, Box.mk 100 100 1 1] 1 0 [1]).2
     1 (by decide)⟩

/-! ### C4: keep order is non-increasing in confidence -/

/-- Claim C4 (confirmed). The keep list returned by `_nms_boxes` consists of original
candidate indices (each a valid index into the confidence array, none
repeated), and along the selection order the confidences are non-increasing:
the keep list is a sub-sequence of `argsort()[::-1]`, which is sorted by
non-increasing confidence. -/
theorem nms_keep_order (cfg : Config) (boxes : List Box) (confs : List ℚ) :
    (∀ i ∈ nms_boxes cfg boxes confs, i < confs.length) ∧
    (nms_boxes cfg boxes confs).Nodup ∧
    ∀ p q : ℕ, p ≤ q → q < (nms_boxes cfg boxes confs).length →
      confs.getD ((nms_boxes cfg boxes confs).getD q 0) 0 ≤
        confs.getD ((nms_boxes cfg boxes confs).getD p 0) 0 := by
  have hsub : List.Sublist (nms_boxes cfg boxes confs) (argsortDesc confs) :=
    nmsLoop_sublist cfg boxes (argsortDesc confs).length (argsortDesc confs)
  have hperm : (argsortDesc confs).Perm (List.range confs.length) :=
    List.perm_insertionSort _ _
  have hsorted : List.Sorted (confGe confs) (argsortDesc confs) :=
    List.sorted_insertionSort _ _
  refine ⟨?_, ?_, ?_⟩
  · intro i hi
    exact List.mem_range.mp (hperm.mem_iff.mp (hsub.subset hi))
  · exact (hperm.nodup_iff.mpr (List.nodup_range _)).sublist hsub
  · intro p q hpq hq
    rcases eq_or_lt_of_le hpq with rfl | hlt
    · exact le_refl _
    · have hpw : (nms_boxes cfg boxes confs).Pairwise (confGe confs) :=
        List.Pairwise.sublist hsub hsorted
      have hp : p < (nms_boxes cfg boxes confs).length := lt_of_le_of_lt hpq hq
      have := List.pairwise_iff_getElem.mp hpw p q hp hq hlt
      rw [List.getD_eq_getElem _ 0 hp, List.getD_eq_getElem _ 0 hq]
      exact this

/-- Witness for `nms_keep_order`: in a two-candidate run the first kept
confidence dominates the second. -/
theorem nms_keep_order_witness :
    ([(1:ℚ)/2, 3/4].getD
        ((nms_boxes smallConfig [Box.mk 0 0 1 1, Box.mk 100 100 1 1] [1/2, 3/4]).getD 1 0) 0 ≤
      [(1:ℚ)/2, 3/4].getD
        ((nms_boxes smallConfig [Box.mk 0 0 1 1, Box.mk 100 100 1 1] [1/2, 3/4]).getD 0 0) 0) :=
  (nms_keep_order smallConfig [Box.mk 0 0 1 1, Box.mk 100 100 1 1] [1/2, 3/4]).2.2
    0 1 (by decide) (of_decide_eq_true (by with_unfolding_all rfl))

/-! ### C5: the rescale stage receives transposed image dimensions -/

/-- Claim C5 (refuted: code bug). Here `_process_yolo_output` multiplies each
normalized (x, y, w, h) by `[width, height, width, height]` unpacked from
`resolution_raw`, but `DarknetTRT.__call__` supplies
`shape_orig_WH = image.shape` sliced to its first two components, which for an
ndarray image is `(height, width)` — not the documented WH order.  For a
non-square image of height 480 and width 640, the normalized box (1, 1, 1, 1)
is scaled to (480, 640, 480, 640): x and w are multiplied by the image
*height*, contradicting the claim (and `process`'s own docstring) that they
are multiplied by the image width. -/
theorem rescale_uses_transposed_dims :
    rescaleBoxes (callResolutionRaw 480 640) [Box.mk 1 1 1 1] =
      [Box.mk 480 640 480 640] ∧ (480 : ℚ) ≠ 640 :=
  ⟨by with_unfolding_all rfl, of_decide_eq_true (by with_unfolding_all rfl)⟩

/-! ### Plumbing lemmas for the `Except`-valued pipeline -/

theorem except_bind_ok {α β : Type} (a : α) (f : α → Except String β) :
    (Except.ok a >>= f) = f a := rfl

theorem except_bind_error {α β : Type} (e : String) (f : α → Except String β) :
    ((Except.error e : Except String α) >>= f) = Except.error e := rfl

theorem npConcatenate_eq_ok {α : Type} {ls : List (List α)} (h : ls ≠ []) :
    npConcatenate ls = Except.ok ls.flatten := by
  cases ls with
  | nil => exact absurd rfl h
  | cons a t => rfl

theorem reshapeAll_error :
    ∀ (outputs : List RawOutput), (∃ o ∈ outputs, ¬ reshape_ok o) →
      reshapeAll outputs = Except.error "cannot reshape array" := by
  intro outputs
  induction outputs with
  | nil => rintro ⟨o, ho, _⟩; cases ho
  | cons a t ih =>
    rintro ⟨o, ho, hbad⟩
    by_cases ha : reshape_ok a
    · have ht : o ∈ t := by
        rcases List.mem_cons.mp ho with rfl | ht
        · exact absurd ha hbad
        · exact ht
      simp [reshapeAll, reshapeOutput, ha, ih ⟨o, ht, hbad⟩]
    · simp [reshapeAll, reshapeOutput, ha]

theorem process_eq_of_reshapeAll_ok {fexp : ℚ → ℚ} {cfg : Config}
    {outputs : List RawOutput} {res : ℚ × ℚ} {outs : List Tensor4}
    (h : reshapeAll outputs = Except.ok outs) :
    process fexp cfg outputs res = process_yolo_output fexp cfg outs res := by
  unfold process
  rw [h]

theorem process_eq_of_reshapeAll_error {fexp : ℚ → ℚ} {cfg : Config}
    {outputs : List RawOutput} {res : ℚ × ℚ} {e : String}
    (h : reshapeAll outputs = Except.error e) :
    process fexp cfg outputs res = Except.error e := by
  unfold process
  rw [h]

/-- Reduction of `_process_yolo_output` once the per-scale list is known to be
non-empty (so the three `np.concatenate` calls succeed). -/
theorem process_yolo_output_eq (fexp : ℚ → ℚ) (cfg : Config) (outs : List Tensor4)
    (res : ℚ × ℚ) (h : perScaleResults fexp cfg outs ≠ []) :
    process_yolo_output fexp cfg outs res =
      (let perScale := perScaleResults fexp cfg outs
       let boxes := rescaleBoxes res ((perScale.map (·.1)).flatten)
       let categories := (perScale.map (·.2.1)).flatten
       let confidences := (perScale.map (·.2.2)).flatten
       let cats := categories.dedup
       let groups := cats.map (nmsGroup cfg boxes categories confidences)
       if cats = [] then Except.ok (none, none, none)
       else Except.ok (some ((groups.map (·.1)).flatten),
         some ((groups.map (·.2.1)).flatten),
         some ((groups.map (·.2.2)).flatten))) := by
  unfold process_yolo_output
  dsimp only
  rw [npConcatenate_eq_ok (show (perScaleResults fexp cfg outs).map (·.1) ≠ [] by
        simpa using h), except_bind_ok,
    npConcatenate_eq_ok (show (perScaleResults fexp cfg outs).map (·.2.1) ≠ [] by
      simpa using h), except_bind_ok,
    npConcatenate_eq_ok (show (perScaleResults fexp cfg outs).map (·.2.2) ≠ [] by
      simpa using h), except_bind_ok]
  rfl

theorem take_length_zip {α β : Type} :
    ∀ (l1 : List α) (l2 : List β), (l1.take l2.length).zip l2 = l1.zip l2 := by
  intro l1
  induction l1 with
  | nil => intro l2; simp
  | cons a t ih =>
    intro l2
    cases l2 with
    | nil => simp
    | cons b s => simp [ih]

theorem zip_take_length {α β : Type} :
    ∀ (l1 : List α) (l2 : List β), l1.zip (l2.take l1.length) = l1.zip l2 := by
  intro l1
  induction l1 with
  | nil => intro l2; simp
  | cons a t ih =>
    intro l2
    cases l2 with
    | nil => simp
    | cons b s => simp [ih]

theorem nmsLoop_masks_irrel (cfg : Config) (m' : List (List ℕ)) (boxes : List Box) :
    ∀ (fuel : ℕ) (l : List ℕ),
      nmsLoop { cfg with masks := m' } boxes fuel l = nmsLoop cfg boxes fuel l := by
  intro fuel
  induction fuel with
  | zero => intro l; cases l <;> rfl
  | succ f ih =>
    intro l
    cases l with
    | nil => rfl
    | cons i rest =>
      show i :: nmsLoop { cfg with masks := m' } boxes f _ =
        i :: nmsLoop cfg boxes f _
      rw [ih]

theorem nms_boxes_masks_irrel (cfg : Config) (m' : List (List ℕ)) :
    nms_boxes { cfg with masks := m' } = nms_boxes cfg := by
  funext boxes confs
  show nmsLoop { cfg with masks := m' } boxes
      (argsortDesc confs).length (argsortDesc confs) =
    nmsLoop cfg boxes (argsortDesc confs).length (argsortDesc confs)
  exact nmsLoop_masks_irrel cfg m' boxes _ _

theorem nmsGroup_masks_irrel (cfg : Config) (m' : List (List ℕ)) :
    nmsGroup { cfg with masks := m' } = nmsGroup cfg := by
  funext boxes categories confidences c
  unfold nmsGroup
  rw [nms_boxes_masks_irrel]

/-! ### C6: behavior on malformed input shapes -/

/-- Claim C6 (counterexample). Two well-shaped tensors against the three
configured masks: the tensor count differs from the mask count, yet `process`
does not fail — Python's `zip` silently drops the unmatched mask and the call
returns a normal (here empty) result, with partial work done on the matched
pairs. -/
theorem process_count_mismatch_no_error :
    [zeroTensor255, zeroTensor255].length ≠ stdConfig.masks.length ∧
    process (fun _ => 1) stdConfig [zeroTensor255, zeroTensor255] (640, 480) =
      Except.ok (none, none, none) :=
  ⟨by decide, by with_unfolding_all rfl⟩

/-- Claim C6 (amended). If some tensor's shape is incompatible with
(H, W, 3, 85) — channel count ≠ 3·(5+C) — then `process` fails with the
`np.reshape` error, and the failure arises in the reshape loop, before
`_process_yolo_output` does any decode work; but there is no check at all on
the tensor count: `zip` silently pairs tensors with masks up to the shorter
sequence, so post-processing behaves identically — errors included — when the
tensors beyond the mask count, or the masks beyond the tensor count, are
dropped.  (The concrete mismatch `process_count_mismatch_no_error` shows two
well-shaped tensors against the three configured masks returning the normal
empty result rather than any error.) -/
theorem process_shape_error_behavior :
    (∀ (fexp : ℚ → ℚ) (cfg : Config) (outputs : List RawOutput) (res : ℚ × ℚ),
      (∃ o ∈ outputs, ¬ reshape_ok o) →
      reshapeAll outputs = Except.error "cannot reshape array" ∧
      process fexp cfg outputs res = Except.error "cannot reshape array") ∧
    (∀ (fexp : ℚ → ℚ) (cfg : Config) (outs : List Tensor4) (res : ℚ × ℚ),
      process_yolo_output fexp cfg outs res =
        process_yolo_output fexp cfg (outs.take cfg.masks.length) res ∧
      process_yolo_output fexp cfg outs res =
        process_yolo_output fexp
          { cfg with masks := cfg.masks.take outs.length } outs res) := by
  constructor
  · intro fexp cfg outputs res hbad
    have he := reshapeAll_error outputs hbad
    exact ⟨he, process_eq_of_reshapeAll_error he⟩
  · intro fexp cfg outs res
    constructor
    · have hper : perScaleResults fexp cfg (outs.take cfg.masks.length) =
          perScaleResults fexp cfg outs := by
        show ((outs.take cfg.masks.length).zip cfg.masks).map (decodeAndFilter fexp cfg) =
          (outs.zip cfg.masks).map (decodeAndFilter fexp cfg)
        rw [take_length_zip]
      unfold process_yolo_output
      rw [hper]
    · have hper : perScaleResults fexp
          { cfg with masks := cfg.masks.take outs.length } outs =
          perScaleResults fexp cfg outs := by
        show (outs.zip (cfg.masks.take outs.length)).map
            (decodeAndFilter fexp { cfg with masks := cfg.masks.take outs.length }) =
          (outs.zip cfg.masks).map (decodeAndFilter fexp cfg)
        rw [zip_take_length]
        rfl
      unfold process_yolo_output
      rw [hper, nmsGroup_masks_irrel cfg (cfg.masks.take outs.length)]

/-- Witness for `process_shape_error_behavior`: a bad-channel tensor makes
`process` fail with the reshape error; against the standard three-mask
configuration, two well-shaped tensors are post-processed exactly as if the
unmatched third mask were absent. -/
theorem process_shape_error_behavior_witness :
    (reshapeAll [badTensor254] = Except.error "cannot reshape array" ∧
     process (fun _ => 1) smallConfig [badTensor254] (640, 480) =
       Except.error "cannot reshape array") ∧
    (process_yolo_output (fun _ => 1) stdConfig
        [reshapeBody zeroTensor255, reshapeBody zeroTensor255] (640, 480) =
      process_yolo_output (fun _ => 1) stdConfig
        ([reshapeBody zeroTensor255, reshapeBody zeroTensor255].take
          stdConfig.masks.length) (640, 480) ∧
     process_yolo_output (fun _ => 1) stdConfig
        [reshapeBody zeroTensor255, reshapeBody zeroTensor255] (640, 480) =
      process_yolo_output (fun _ => 1)
        { stdConfig with masks := (stdConfig.masks.take
            ([reshapeBody zeroTensor255, reshapeBody zeroTensor255].length)) }
        [reshapeBody zeroTensor255, reshapeBody zeroTensor255] (640, 480)) :=
  ⟨process_shape_error_behavior.1 (fun _ => 1) smallConfig [badTensor254] (640, 480)
     ⟨badTensor254, List.mem_singleton.mpr rfl, by decide⟩,
   process_shape_error_behavior.2 (fun _ => 1) stdConfig
     [reshapeBody zeroTensor255, reshapeBody zeroTensor255] (640, 480)⟩

/-! ### C7: the explicit empty result -/

/-- Claim C7 (confirmed). When zero candidates survive filtering across all scales (every
per-scale class list is empty), `process` returns the explicit no-detections
result `(None, None, None)` — all three components are the null sentinel, so
it is not an exception and not a result mixing empty/non-empty or null and
non-null components. -/
theorem process_all_filtered_empty (fexp : ℚ → ℚ) (cfg : Config)
    (outputs : List RawOutput) (res : ℚ × ℚ) (outs : List Tensor4)
    (hre : reshapeAll outputs = Except.ok outs)
    (hnz : outs.zip cfg.masks ≠ [])
    (hf : ∀ ps ∈ perScaleResults fexp cfg outs, ps.2.1 = []) :
    process fexp cfg outputs res = Except.ok (none, none, none) := by
  have hps : perScaleResults fexp cfg outs ≠ [] := by
    simpa [perScaleResults] using hnz
  have hall : ∀ l ∈ (perScaleResults fexp cfg outs).map (·.2.1), l = ([] : List ℕ) := by
    intro l hl
    rcases List.mem_map.mp hl with ⟨ps, hpsm, rfl⟩
    exact hf ps hpsm
  have hcat : ((perScaleResults fexp cfg outs).map (·.2.1)).flatten = ([] : List ℕ) := by
    rw [List.flatten_eq_nil_iff]
    exact hall
  rw [process_eq_of_reshapeAll_ok hre, process_yolo_output_eq fexp cfg outs res hps]
  dsimp only
  rw [hcat]
  simp

/-- Witness for `process_all_filtered_empty`: with all-zero logits every
sigmoid is 1/2, every best class score is 1/4 < 0.6, and the pipeline returns
the `(None, None, None)` triple. -/
theorem process_all_filtered_empty_witness :
    process (fun _ => 1) smallConfig [zeroTensor255] (640, 480) =
      Except.ok (none, none, none) :=
  process_all_filtered_empty (fun _ => 1) smallConfig [zeroTensor255] (640, 480)
    [reshapeBody zeroTensor255]
    (by with_unfolding_all rfl)
    (of_decide_eq_true (by with_unfolding_all rfl))
    (of_decide_eq_true (by with_unfolding_all rfl))

/-! ### C8: the three outputs are index-aligned -/

theorem nmsGroup_lengths (cfg : Config) (boxes : List Box) (categories : List ℕ)
    (confidences : List ℚ) (c : ℕ) :
    (nmsGroup cfg boxes categories confidences c).1.length =
      (nmsGroup cfg boxes categories confidences c).2.1.length ∧
    (nmsGroup cfg boxes categories confidences c).2.1.length =
      (nmsGroup cfg boxes categories confidences c).2.2.length := by
  simp [nmsGroup]

theorem flatten_triple_lengths {A B C : Type} :
    ∀ (gs : List (List A × List B × List C)),
      (∀ g ∈ gs, g.1.length = g.2.1.length ∧ g.2.1.length = g.2.2.length) →
      ((gs.map (·.1)).flatten.length = (gs.map (·.2.1)).flatten.length ∧
        (gs.map (·.2.1)).flatten.length = (gs.map (·.2.2)).flatten.length) := by
  intro gs
  induction gs with
  | nil => intro _; simp
  | cons g t ih =>
    intro hg
    have h1 := hg g (List.mem_cons_self g t)
    have h2 := ih fun x hx => hg x (List.mem_cons_of_mem _ hx)
    simp [h1.1, h1.2, h2.1, h2.2]

/-- Claim C8 (confirmed). Whatever `process` returns without raising is either the all-`None`
triple or three `some` arrays of equal length: the outputs are always
index-aligned. -/
theorem process_output_aligned (fexp : ℚ → ℚ) (cfg : Config)
    (outputs : List RawOutput) (res : ℚ × ℚ) (r : Result)
    (h : process fexp cfg outputs res = Except.ok r) :
    r = (none, none, none) ∨
    ∃ b c s, r = (some b, some c, some s) ∧
      b.length = c.length ∧ c.length = s.length := by
  rcases hm : reshapeAll outputs with e | outs
  · rw [process_eq_of_reshapeAll_error hm] at h
    cases h
  · rw [process_eq_of_reshapeAll_ok hm] at h
    by_cases hps : perScaleResults fexp cfg outs = []
    · have herr : process_yolo_output fexp cfg outs res =
          Except.error "need at least one array to concatenate" := by
        unfold process_yolo_output
        dsimp only
        rw [hps]
        rfl
      rw [herr] at h
      cases h
    · rw [process_yolo_output_eq fexp cfg outs res hps] at h
      dsimp only at h
      split at h
      · cases h
        left
        rfl
      · cases h
        right
        refine ⟨_, _, _, rfl, ?_⟩
        apply flatten_triple_lengths
        intro g hg
        rcases List.mem_map.mp hg with ⟨c, _, rfl⟩
        exact nmsGroup_lengths cfg _ _ _ c

/-- Witness for `process_output_aligned` at a concrete run that returns the
all-`None` triple. -/
theorem process_output_aligned_witness :
    ((none, none, none) : Result) = (none, none, none) ∨
    ∃ b c s, ((none, none, none) : Result) = (some b, some c, some s) ∧
      b.length = c.length ∧ c.length = s.length :=
  process_output_aligned (fun _ => 1) smallConfig [zeroTensor255] (640, 480)
    (none, none, none) (by with_unfolding_all rfl)

/-! ### C9: determinism / purity -/

/-- Claim C9 (confirmed). The function `process` is a pure function of its configuration and arguments:
the state-passing form returns the configuration unchanged, and running it a
second time on the same tensors and image dimensions (threading the returned
state) yields the identical result, including the identical ordering of
detections across classes. -/
theorem process_pure_deterministic (fexp : ℚ → ℚ) (cfg : Config)
    (outputs : List RawOutput) (res : ℚ × ℚ) :
    (processStateful fexp cfg outputs res).1 = cfg ∧
    (processStateful fexp (processStateful fexp cfg outputs res).1 outputs res).2 =
      (processStateful fexp cfg outputs res).2 :=
  ⟨rfl, rfl⟩

/-! ### C10: non-empty groups always keep their best candidate -/

theorem argsort_head_spec {confs : List ℚ} (h : confs ≠ []) :
    ∃ m rest, argsortDesc confs = m :: rest ∧
      ∀ k < confs.length, confs.getD k 0 ≤ confs.getD m 0 := by
  have hlen : (argsortDesc confs).length = confs.length := by
    simp [argsortDesc]
  have hne : argsortDesc confs ≠ [] := by
    intro hnil
    rw [hnil] at hlen
    exact h (List.length_eq_zero.mp hlen.symm)
  obtain ⟨m, rest, hor⟩ := List.exists_cons_of_ne_nil hne
  have hperm : (argsortDesc confs).Perm (List.range confs.length) :=
    List.perm_insertionSort _ _
  have hsorted : List.Sorted (confGe confs) (argsortDesc confs) :=
    List.sorted_insertionSort _ _
  refine ⟨m, rest, hor, ?_⟩
  intro k hk
  have hkmem : k ∈ argsortDesc confs := hperm.mem_iff.mpr (List.mem_range.mpr hk)
  rw [hor] at hkmem hsorted
  rcases List.mem_cons.mp hkmem with rfl | hkr
  · exact le_refl _
  · exact List.rel_of_sorted_cons hsorted k hkr

theorem nms_boxes_cons (cfg : Config) (boxes : List Box) {confs : List ℚ}
    {m : ℕ} {rest : List ℕ} (hor : argsortDesc confs = m :: rest) :
    nms_boxes cfg boxes confs = m :: nmsLoop cfg boxes rest.length
      (rest.filter fun j =>
        iou (boxes.getD m default) (boxes.getD j default) ≤ cfg.nms_threshold) := by
  show nmsLoop cfg boxes (argsortDesc confs).length (argsortDesc confs) = _
  rw [hor, List.length_cons]
  rfl

theorem nmsGroup_ne_nil (cfg : Config) (boxes : List Box) (categories : List ℕ)
    (confidences : List ℚ) (c : ℕ)
    (h : nms_boxes cfg ((npWhereEq categories c).map fun k => boxes.getD k default)
        ((npWhereEq categories c).map fun k => confidences.getD k 0) ≠ []) :
    (nmsGroup cfg boxes categories confidences c).1 ≠ [] ∧
    (nmsGroup cfg boxes categories confidences c).2.1 ≠ [] ∧
    (nmsGroup cfg boxes categories confidences c).2.2 ≠ [] := by
  refine ⟨?_, ?_, ?_⟩ <;> simpa [nmsGroup] using h

/-- Claim C10 (confirmed). (i) For every non-empty group of candidates handed to
`_nms_boxes` the keep list is non-empty, and it contains an index whose
confidence dominates every candidate of the group (the first pop of the loop
is the head of the descending argsort).  (ii) Consequently, whenever the
aggregated candidate list is non-empty, `_process_yolo_output` returns three
non-empty `some` arrays — the empty final result can only arise when zero
candidates survived filtering. -/
theorem nms_nonempty_guarantee :
    (∀ (cfg : Config) (boxes : List Box) (confs : List ℚ), confs ≠ [] →
      nms_boxes cfg boxes confs ≠ [] ∧
      ∃ m ∈ nms_boxes cfg boxes confs,
        ∀ k < confs.length, confs.getD k 0 ≤ confs.getD m 0) ∧
    (∀ (fexp : ℚ → ℚ) (cfg : Config) (outs : List Tensor4) (res : ℚ × ℚ),
      outs.zip cfg.masks ≠ [] →
      ((perScaleResults fexp cfg outs).map (·.2.1)).flatten ≠ [] →
      ∃ b c s, process_yolo_output fexp cfg outs res =
          Except.ok (some b, some c, some s) ∧ b ≠ [] ∧ c ≠ [] ∧ s ≠ []) := by
  have part_a : ∀ (cfg : Config) (boxes : List Box) (confs : List ℚ), confs ≠ [] →
      nms_boxes cfg boxes confs ≠ [] ∧
      ∃ m ∈ nms_boxes cfg boxes confs,
        ∀ k < confs.length, confs.getD k 0 ≤ confs.getD m 0 := by
    intro cfg boxes confs h
    obtain ⟨m, rest, hor, hmax⟩ := argsort_head_spec h
    rw [nms_boxes_cons cfg boxes hor]
    exact ⟨List.cons_ne_nil _ _, m, List.mem_cons_self _ _, hmax⟩
  refine ⟨part_a, ?_⟩
  intro fexp cfg outs res hz hcats
  have hps : perScaleResults fexp cfg outs ≠ [] := by
    simpa [perScaleResults] using hz
  rw [process_yolo_output_eq fexp cfg outs res hps]
  dsimp only
  set boxes := rescaleBoxes res (((perScaleResults fexp cfg outs).map (·.1)).flatten)
    with hboxdef
  set categories := ((perScaleResults fexp cfg outs).map (·.2.1)).flatten with hcatdef
  set confidences := ((perScaleResults fexp cfg outs).map (·.2.2)).flatten with hconfdef
  have hdedup : categories.dedup ≠ [] := by
    rw [Ne, List.dedup_eq_nil]
    exact hcats
  obtain ⟨c0, cs, hcs⟩ := List.exists_cons_of_ne_nil hdedup
  have hc0cats : c0 ∈ categories.dedup := by
    rw [hcs]
    exact List.mem_cons_self _ _
  have hc0 : c0 ∈ categories := List.mem_dedup.mp hc0cats
  obtain ⟨k, hk, hkv⟩ := List.getElem_of_mem hc0
  have hkmem : k ∈ npWhereEq categories c0 := by
    apply List.mem_filter.mpr
    refine ⟨List.mem_range.mpr hk, ?_⟩
    have hgd : categories.getD k 0 = c0 := by
      rw [List.getD_eq_getElem _ _ hk]
      exact hkv
    exact decide_eq_true hgd
  have hconfne : ((npWhereEq categories c0).map fun j => confidences.getD j 0) ≠ [] := by
    simpa using List.ne_nil_of_mem hkmem
  have hkeepne := (part_a cfg ((npWhereEq categories c0).map fun j => boxes.getD j default)
    ((npWhereEq categories c0).map fun j => confidences.getD j 0) hconfne).1
  have hgne := nmsGroup_ne_nil cfg boxes categories confidences c0 hkeepne
  rw [if_neg hdedup]
  refine ⟨_, _, _, rfl, ?_, ?_, ?_⟩
  · obtain ⟨x, hx⟩ := List.exists_mem_of_ne_nil _ hgne.1
    exact List.ne_nil_of_mem (List.mem_flatten.mpr
      ⟨_, List.mem_map.mpr ⟨_, List.mem_map.mpr ⟨c0, hc0cats, rfl⟩, rfl⟩, hx⟩)
  · obtain ⟨x, hx⟩ := List.exists_mem_of_ne_nil _ hgne.2.1
    exact List.ne_nil_of_mem (List.mem_flatten.mpr
      ⟨_, List.mem_map.mpr ⟨_, List.mem_map.mpr ⟨c0, hc0cats, rfl⟩, rfl⟩, hx⟩)
  · obtain ⟨x, hx⟩ := List.exists_mem_of_ne_nil _ hgne.2.2
    exact List.ne_nil_of_mem (List.mem_flatten.mpr
      ⟨_, List.mem_map.mpr ⟨_, List.mem_map.mpr ⟨c0, hc0cats, rfl⟩, rfl⟩, hx⟩)

/-- Witness for `nms_nonempty_guarantee`: a two-candidate group keeps its
best; a run where candidates survive yields non-empty output arrays. -/
theorem nms_nonempty_guarantee_witness :
    (nms_boxes smallConfig [Box.mk 0 0 1 1, Box.mk 100 100 1 1] [1/2, 3/4] ≠ [] ∧
     ∃ m ∈ nms_boxes smallConfig [Box.mk 0 0 1 1, Box.mk 100 100 1 1] [1/2, 3/4],
       ∀ k < ([(1:ℚ)/2, 3/4]).length,
         [(1:ℚ)/2, 3/4].getD k 0 ≤ [(1:ℚ)/2, 3/4].getD m 0) ∧
    ∃ b c s, process_yolo_output (fun _ => 1/999) smallConfig
        [reshapeBody zeroTensor255] (640, 480) =
        Except.ok (some b, some c, some s) ∧ b ≠ [] ∧ c ≠ [] ∧ s ≠ [] :=
  ⟨nms_nonempty_guarantee.1 smallConfig [Box.mk 0 0 1 1, Box.mk 100 100 1 1]
     [1/2, 3/4] (of_decide_eq_true (by with_unfolding_all rfl)),
   nms_nonempty_guarantee.2 (fun _ => 1/999) smallConfig [reshapeBody zeroTensor255]
     (640, 480) (of_decide_eq_true (by with_unfolding_all rfl))
     (of_decide_eq_true (by with_unfolding_all rfl))⟩

end TrtYolo
